import Mathlib

/-!
# Verification of the 8-Ball-Pool account-verification pipeline

Shallow embedding of the decision core of the repository:

* the profile-screenshot classifier (isValidProfileScreenshot in
  src/events/messageCreate.ts),
* the per-submission reconciliation pipeline of handleMessageCreate
  (building the results array, batch poisoning, unreadable rejection,
  best-match selection by the reduce call, the downgrade check against the
  stored verification record, and the accepted level computation),
* the DM deletion scheduler (DMCleanupService in src/services/dmCleanup.ts),
  modelled as a state machine over an explicit timer registry.

JavaScript numbers that only ever enter comparisons (OCR/match confidence
scores, which are 0-100 values) are modelled as rationals; JS truthiness of
a number is value not equal to 0, and an absent object field is an Option
that is none.  Timestamps are irrelevant to every property proved here and
are omitted from the record model.
-/

namespace EightBall

/-! ## Text classifier: src/events/messageCreate.ts, isValidProfileScreenshot

The source tests a list of case-insensitive regular expressions against the
OCR text.  The patterns only use literal characters, the gap \s* between
words of a phrase, the optional class [:\-]?, the class [a-z\s]+ and one
top-level alternation (?:level|evel|lvl).  We embed exactly this fragment:
a pattern is a list of tokens, alternation is a list of token lists, and
matching has the existential semantics of a regex search (some starting
position and some expansion of each variable-width token succeeds). -/

/-- Whitespace as matched by the JS regex class \s (ASCII part plus NBSP). -/
def isWsChar (c : Char) : Bool :=
  c = ' ' || c = '\t' || c = '\n' || c = '\r' || c = '\u000B' ||
  c = '\u000C' || c = ' '

/-- The character class [a-z\s] under the case-insensitive flag. -/
def isLetterSpace (c : Char) : Bool :=
  ('a' ≤ c.toLower && c.toLower ≤ 'z') || isWsChar c

/-- Case-insensitive character comparison (the i flag on every pattern). -/
def ciEq (a b : Char) : Bool :=
  a.toLower == b.toLower

/-- Tokens of the regex fragment used by the classifier patterns. -/
inductive Tok where
  | ch (c : Char)
  | wsStar
  | colonDashOpt
  | letterSpacePlus
deriving DecidableEq, Repr

/-- All suffixes reachable by consuming zero or more whitespace characters:
the expansions of \s*. -/
def wsTails : List Char → List (List Char)
  | [] => [[]]
  | d :: ds => (d :: ds) :: (if isWsChar d then wsTails ds else [])

/-- All suffixes reachable by consuming one or more [a-z\s] characters:
the expansions of the class-plus token. -/
def lsTails : List Char → List (List Char)
  | [] => []
  | d :: ds => if isLetterSpace d then ds :: lsTails ds else []

/-- Match a token list against a prefix of the character list, with full
backtracking (existential regex semantics). -/
def matchToksFrom : List Tok → List Char → Bool
  | [], _ => true
  | Tok.ch _ :: _, [] => false
  | Tok.ch c :: ts, d :: ds => ciEq d c && matchToksFrom ts ds
  | Tok.wsStar :: ts, ds => (wsTails ds).any (fun ds' => matchToksFrom ts ds')
  | Tok.colonDashOpt :: ts, [] => matchToksFrom ts []
  | Tok.colonDashOpt :: ts, d :: ds =>
      matchToksFrom ts (d :: ds) || ((d == ':' || d == '-') && matchToksFrom ts ds)
  | Tok.letterSpacePlus :: ts, ds => (lsTails ds).any (fun ds' => matchToksFrom ts ds')

/-- Regex search: the token list matches at some position of the text. -/
def searchToks (ts : List Tok) : List Char → Bool
  | [] => matchToksFrom ts []
  | d :: ds => matchToksFrom ts (d :: ds) || searchToks ts ds

/-- Turn a lowercase phrase into tokens, reading a space as the \s* the
source patterns put between words. -/
def toksOfSpaced (s : String) : List Tok :=
  s.toList.map (fun c => if c = ' ' then Tok.wsStar else Tok.ch c)

/-- A pattern is a disjunction of token sequences (singleton for all
patterns except the (?:level|evel|lvl) alternation). -/
def patTest (alts : List (List Tok)) (cs : List Char) : Bool :=
  alts.any (fun ts => searchToks ts cs)

/-- The qualifying profile indicators, in source order. -/
def profileIndicators : List (List (List Tok)) :=
  [ [toksOfSpaced "profile"],
    [toksOfSpaced "rank" ++ [Tok.wsStar, Tok.colonDashOpt, Tok.wsStar, Tok.letterSpacePlus]],
    [toksOfSpaced "level progress", toksOfSpaced "evel progress", toksOfSpaced "lvl progress"],
    [toksOfSpaced "unique id"],
    [toksOfSpaced "player stats"] ]

/-- The disqualifying main-menu indicators, in source order. -/
def mainMenuIndicators : List (List (List Tok)) :=
  [ [toksOfSpaced "8 ball pool by miniclip"],
    [toksOfSpaced "play special"],
    [toksOfSpaced "play minigames"],
    [toksOfSpaced "play with friends"],
    [toksOfSpaced "pool pass"],
    [toksOfSpaced "free rewards"],
    [toksOfSpaced "leaderboards"],
    [toksOfSpaced "shop"],
    [toksOfSpaced "clubs"],
    [toksOfSpaced "one & done"],
    [toksOfSpaced "event hyperspace"],
    [toksOfSpaced "brainrot shop"] ]

/-- The classifier: main-menu indicators are tested first and any match
returns false at once; otherwise the result is whether at least one profile
indicator matches. -/
def isValidProfileScreenshot (ocrText : String) : Bool :=
  let cs := ocrText.toList
  if mainMenuIndicators.any (fun p => patTest p cs) then false
  else profileIndicators.any (fun p => patTest p cs)

example : isValidProfileScreenshot "My Profile Level Progress 42" = true := by decide
example : isValidProfileScreenshot "8 Ball Pool by Miniclip  Play Special Level Progress 42" = false := by decide
example : isValidProfileScreenshot "nothing relevant here" = false := by decide
example : isValidProfileScreenshot "Rank: Silver" = true := by decide

/-! ## Data model of the reconciliation pipeline

Structures follow the shapes used by handleMessageCreate: the rank tier
entries of ranks.json, the object returned by rankMatcher.matchRank (rank
tier fields plus detected level and confidence), the entries pushed into
the results array, and the persisted verification record (timestamps
omitted; no claim mentions them). -/

/-- A rank tier as configured in ranks.json. -/
structure RankTier where
  rank_name : String
  level_min : Nat
  level_max : Nat
  role_id : String
deriving DecidableEq, Repr

/-- The object returned by rankMatcher.matchRank on success: the matched
tier together with the detected level (absent when no numeric level was
read) and a 0-100 confidence score. -/
structure MatchedRank where
  rank_name : String
  level_min : Nat
  level_max : Nat
  role_id : String
  level_detected : Option Nat
  confidence : Rat
deriving DecidableEq, Repr

/-- An entry of the results array built by handleMessageCreate.  Fields the
source leaves undefined on a given push are none. -/
structure ResultEntry where
  success : Bool
  rank : Option MatchedRank
  level : Option Nat
  confidence : Option Rat
  isProfile : Option Bool
deriving DecidableEq, Repr

/-- The per-attachment outcome of processImage, classified by the branch it
returns from: not an image, a thrown error, a non-profile screenshot, a
profile screenshot with no rank match, or a successful match. -/
inductive AttachOutcome where
  | notImage
  | procError
  | notProfile
  | profileNoMatch
  | matched (r : MatchedRank)
deriving DecidableEq, Repr

/-- The entry handleMessageCreate pushes for a successful match: success
true, the matched rank, its detected level and confidence; the isProfile
field is left undefined by the source on this push. -/
def mkSuccessEntry (r : MatchedRank) : ResultEntry :=
  ⟨true, some r, r.level_detected, some r.confidence, none⟩

/-- The entry pushed for an attachment that is not a profile screenshot. -/
def invalidEntry : ResultEntry :=
  ⟨false, none, none, none, some false⟩

/-- What handleMessageCreate pushes into its results array for one
attachment: a success entry for a match, the invalid entry when the image
was processed but is not a profile screenshot, and nothing otherwise. -/
def pushResult : AttachOutcome → Option ResultEntry
  | AttachOutcome.matched r => some (mkSuccessEntry r)
  | AttachOutcome.notProfile => some invalidEntry
  | _ => none

/-- The results array built by the processing loop. -/
def buildResults (outcomes : List AttachOutcome) : List ResultEntry :=
  outcomes.filterMap pushResult

/-- JS (x || 0) on an optional confidence: an absent value and 0 both read
as 0, every other value as itself. -/
def confOr0 (o : Option Rat) : Rat :=
  o.getD 0

/-- One step of the reduce call selecting the best match: the current entry
replaces the best so far only when its confidence is truthy (not 0, not
absent) and strictly greater.  The !best disjunct of the source is always
false since an object is truthy. -/
def betterOf (best current : ResultEntry) : ResultEntry :=
  match current.confidence with
  | none => best
  | some c => if c ≠ 0 ∧ confOr0 best.confidence < c then current else best

/-- JS Array.reduce with no initial value: fold from the head; none on the
empty array (where the source would throw, behind a nonemptiness guard). -/
def bestMatchOf : List ResultEntry → Option ResultEntry
  | [] => none
  | h :: t => some (t.foldl betterOf h)

/-- The accepted level: bestMatch.level || matchedRank.level_min, where an
absent or zero detected level falls back to the tier minimum. -/
def levelOrMin (lvl : Option Nat) (lmin : Nat) : Nat :=
  match lvl with
  | some l => if l = 0 then lmin else l
  | none => lmin

/-- The persisted verification record (Prisma model Verification without
the two timestamps, which no claim mentions). -/
structure VerificationRecord where
  discord_id : String
  username : String
  rank_name : String
  level_detected : Nat
  role_id_assigned : String
deriving DecidableEq, Repr

/-- Modelled from the spec: rankMatcher.getRankByName is not among the
provided sources; per the spec the rank table is a static list with lookup
by name, so the stored rank name resolves to the tier carrying it, if
any. -/
def getRankByName (table : List RankTier) (name : String) : Option RankTier :=
  table.find? (fun t => t.rank_name = name)

/-- The four terminal outcomes of a submission, plus the silent return the
source takes when the selected best match has no rank field (shown
unreachable). -/
inductive Outcome where
  | rejectInvalid
  | rejectUnreadable
  | rejectNoUpgrade
  | accept (rank : MatchedRank) (level : Nat)
  | silentNull
deriving DecidableEq, Repr

/-- The reconciliation pipeline of handleMessageCreate after the results
array is built: reject the whole batch if any entry is a non-profile
screenshot; reject as unreadable if no entry is a successful match; select
the best match by the reduce; compare against the stored record resolved
through the rank table and refuse downgrades; otherwise accept with the
matched rank and the computed level. -/
def reconcile (outcomes : List AttachOutcome) (prior : Option VerificationRecord)
    (table : List RankTier) : Outcome :=
  if 0 < ((buildResults outcomes).filter (fun r => r.isProfile == some false)).length then
    Outcome.rejectInvalid
  else if (buildResults outcomes).isEmpty ||
      !((buildResults outcomes).any (fun r => r.success && r.rank.isSome)) then
    Outcome.rejectUnreadable
  else
    match bestMatchOf (buildResults outcomes) with
    | none => Outcome.rejectUnreadable
    | some best =>
      match best.rank with
      | none => Outcome.silentNull
      | some matchedRank =>
        let levelDetected := levelOrMin best.level matchedRank.level_min
        match prior with
        | some existing =>
          match getRankByName table existing.rank_name with
          | some existingRank =>
            if matchedRank.level_min < existingRank.level_min then
              Outcome.rejectNoUpgrade
            else Outcome.accept matchedRank levelDetected
          | none => Outcome.accept matchedRank levelDetected
        | none => Outcome.accept matchedRank levelDetected

/-- The record handed to databaseService.upsertVerification: written only
on acceptance, with the accepted rank name, level and role. -/
def recordWritten (userId username : String) : Outcome → Option VerificationRecord
  | Outcome.accept r lvl => some ⟨userId, username, r.rank_name, lvl, r.role_id⟩
  | _ => none

/-- Whether an attachment outcome is a successful rank match. -/
def isMatchedOutcome : AttachOutcome → Bool
  | AttachOutcome.matched _ => true
  | _ => false

/-! ## DM deletion scheduler: src/services/dmCleanup.ts, DMCleanupService

The service keeps a Map from message id to its scheduled deletion, whose
timeout field is the live timer armed by setTimeout.  We model the runtime
explicitly: armed timers are a list of (timer id, message id) pairs, timer
ids are allocated from a counter, clearTimeout disarms a timer, and a fire
event runs the timeout callback of a timer that is still armed (a cleared
timer never fires).  The callback attempts the message deletion and removes
the registry entry whether or not the deletion succeeded, exactly as both
branches of the source try/catch do; attempted deletions are recorded. -/

/-- Scheduler state: registry (the scheduledDeletions Map, message id to
timer id), the armed timers of the runtime, the timer id counter, and the
log of messages a deletion was attempted on. -/
structure SchedState where
  registry : List (String × Nat)
  liveTimers : List (Nat × String)
  nextTimerId : Nat
  deletionAttempts : List String
deriving DecidableEq, Repr

/-- Map.get on the registry. -/
def regLookup (reg : List (String × Nat)) (m : String) : Option Nat :=
  (reg.find? (fun e => e.1 = m)).map (fun e => e.2)

/-- Map.delete on the registry. -/
def regErase (reg : List (String × Nat)) (m : String) : List (String × Nat) :=
  reg.filter (fun e => e.1 ≠ m)

/-- Map.set on the registry. -/
def regSet (reg : List (String × Nat)) (m : String) (t : Nat) : List (String × Nat) :=
  (m, t) :: regErase reg m

/-- cancelDeletion: when the message has a registry entry, clearTimeout its
timer and delete the entry; otherwise do nothing. -/
def cancelDeletion (s : SchedState) (m : String) : SchedState :=
  match regLookup s.registry m with
  | some t =>
      { s with liveTimers := s.liveTimers.filter (fun e => e.1 ≠ t),
               registry := regErase s.registry m }
  | none => s

/-- scheduleDeletion: a no-op outside DM channels; otherwise cancel any
existing deletion for the message, arm a fresh timer and register it. -/
def scheduleDeletion (s : SchedState) (m : String) (isDM : Bool) : SchedState :=
  if !isDM then s
  else
    let s1 := cancelDeletion s m
    let t := s1.nextTimerId
    { s1 with liveTimers := (t, m) :: s1.liveTimers,
              registry := regSet s1.registry m t,
              nextTimerId := t + 1 }

/-- A timer elapses: if it is still armed, its callback runs, attempting
the deletion and removing the registry entry (on success and on failure
alike); a cleared timer does nothing. -/
def fireTimer (s : SchedState) (t : Nat) : SchedState :=
  match s.liveTimers.find? (fun e => e.1 = t) with
  | some e =>
      { s with liveTimers := s.liveTimers.filter (fun e' => e'.1 ≠ t),
               registry := regErase s.registry e.2,
               deletionAttempts := s.deletionAttempts ++ [e.2] }
  | none => s

/-- cleanup at shutdown: clearTimeout every scheduled deletion and clear
the Map. -/
def cleanupService (s : SchedState) : SchedState :=
  { s with liveTimers := [], registry := [] }

/-- Events driving the scheduler. -/
inductive SchedStep where
  | schedule (m : String) (isDM : Bool)
  | cancel (m : String)
  | fire (t : Nat)
  | cleanup
deriving DecidableEq, Repr

/-- Apply one event. -/
def applyStep (s : SchedState) : SchedStep → SchedState
  | SchedStep.schedule m isDM => scheduleDeletion s m isDM
  | SchedStep.cancel m => cancelDeletion s m
  | SchedStep.fire t => fireTimer s t
  | SchedStep.cleanup => cleanupService s

/-- The state of a fresh service instance. -/
def initState : SchedState :=
  ⟨[], [], 0, []⟩

/-- Run a list of events from the initial state. -/
def runSteps (steps : List SchedStep) : SchedState :=
  steps.foldl applyStep initState

/-- The live timers armed for one message handle. -/
def timersFor (s : SchedState) (m : String) : List (Nat × String) :=
  s.liveTimers.filter (fun e => e.2 = m)

/-- Scheduler well-formedness: every armed timer is the one its message is
registered under, timer ids are distinct, and all are below the counter. -/
def SchedInv (s : SchedState) : Prop :=
  (∀ e ∈ s.liveTimers, regLookup s.registry e.2 = some e.1) ∧
  (s.liveTimers.map (fun e => e.1)).Nodup ∧
  (∀ e ∈ s.liveTimers, e.1 < s.nextTimerId)

/-! ## Lemmas about the classifier matcher -/

theorem mem_wsTails_self (l : List Char) : l ∈ wsTails l := by
  cases l with
  | nil => simp [wsTails]
  | cons d ds => simp [wsTails]

theorem wsTails_append {ds ds' : List Char} (post : List Char)
    (h : ds' ∈ wsTails ds) : ds' ++ post ∈ wsTails (ds ++ post) := by
  induction ds with
  | nil =>
    simp [wsTails] at h
    subst h
    exact mem_wsTails_self post
  | cons d ds ih =>
    simp only [wsTails, List.mem_cons] at h
    rcases h with h | h
    · subst h
      simp [wsTails]
    · by_cases hw : isWsChar d = true
      · simp only [hw, if_true] at h
        simp only [List.cons_append, wsTails, hw, if_true, List.mem_cons]
        exact Or.inr (ih h)
      · simp [hw] at h

theorem lsTails_append {ds ds' : List Char} (post : List Char)
    (h : ds' ∈ lsTails ds) : ds' ++ post ∈ lsTails (ds ++ post) := by
  induction ds with
  | nil => simp [lsTails] at h
  | cons d ds ih =>
    by_cases hl : isLetterSpace d = true
    · simp only [lsTails, hl, if_true, List.mem_cons] at h
      simp only [List.cons_append, lsTails, hl, if_true, List.mem_cons]
      rcases h with h | h
      · subst h
        exact Or.inl rfl
      · exact Or.inr (ih h)
    · simp [lsTails, hl] at h

theorem matchToksFrom_append {ts : List Tok} {ds : List Char} (post : List Char)
    (h : matchToksFrom ts ds = true) : matchToksFrom ts (ds ++ post) = true := by
  induction ts generalizing ds with
  | nil => simp [matchToksFrom]
  | cons t ts ih =>
    cases t with
    | ch c =>
      cases ds with
      | nil => simp [matchToksFrom] at h
      | cons d ds =>
        simp only [matchToksFrom, Bool.and_eq_true] at h
        simp only [List.cons_append, matchToksFrom, Bool.and_eq_true]
        exact ⟨h.1, ih h.2⟩
    | wsStar =>
      simp only [matchToksFrom, List.any_eq_true] at h
      obtain ⟨ds', hmem, hm⟩ := h
      simp only [matchToksFrom, List.any_eq_true]
      exact ⟨ds' ++ post, wsTails_append post hmem, ih hm⟩
    | colonDashOpt =>
      cases ds with
      | nil =>
        simp only [matchToksFrom] at h
        simp only [List.nil_append]
        cases post with
        | nil => simpa [matchToksFrom] using h
        | cons p ps =>
          have : matchToksFrom ts ([] ++ p :: ps) = true := ih h
          simp only [List.nil_append] at this
          simp [matchToksFrom, this]
      | cons d ds =>
        simp only [matchToksFrom, Bool.or_eq_true, Bool.and_eq_true] at h
        simp only [List.cons_append, matchToksFrom, Bool.or_eq_true, Bool.and_eq_true]
        rcases h with h | ⟨hd, h⟩
        · left
          have := @ih (d :: ds) h
          simpa using this
        · exact Or.inr ⟨hd, ih h⟩
    | letterSpacePlus =>
      simp only [matchToksFrom, List.any_eq_true] at h
      obtain ⟨ds', hmem, hm⟩ := h
      simp only [matchToksFrom, List.any_eq_true]
      exact ⟨ds' ++ post, lsTails_append post hmem, ih hm⟩

theorem searchToks_of_match {ts : List Tok} {ds : List Char}
    (h : matchToksFrom ts ds = true) : searchToks ts ds = true := by
  cases ds with
  | nil => simpa [searchToks] using h
  | cons d ds => simp [searchToks, h]

theorem searchToks_append_left {ts : List Tok} {ds : List Char} (pre : List Char)
    (h : searchToks ts ds = true) : searchToks ts (pre ++ ds) = true := by
  induction pre with
  | nil => simpa using h
  | cons p pre ih =>
    simp only [List.cons_append, searchToks, Bool.or_eq_true]
    exact Or.inr ih

theorem string_toList_append (a b : String) :
    (a ++ b).toList = a.toList ++ b.toList :=
  String.data_append a b

/-- C4: for every input text, the classifier returns false whenever a
disqualifying (main-menu) pattern matches, these being evaluated before the
qualifying ones; otherwise it returns true exactly when some qualifying
(profile) pattern matches; and in particular any text containing the phrase
8 Ball Pool by Miniclip, or the phrase Play Special, is classified false no
matter what else it contains. -/
theorem classifier_disqualify_first :
    (∀ text : String, (∃ p ∈ mainMenuIndicators, patTest p text.toList = true) →
      isValidProfileScreenshot text = false) ∧
    (∀ text : String,
      mainMenuIndicators.any (fun p => patTest p text.toList) = false →
      (isValidProfileScreenshot text = true ↔
        ∃ p ∈ profileIndicators, patTest p text.toList = true)) ∧
    (∀ pre post : String,
      isValidProfileScreenshot (pre ++ "8 Ball Pool by Miniclip" ++ post) = false ∧
      isValidProfileScreenshot (pre ++ "Play Special" ++ post) = false) := by
  refine ⟨?_, ?_, ?_⟩
  · intro text h
    have hany : mainMenuIndicators.any (fun p => patTest p text.toList) = true :=
      List.any_eq_true.mpr h
    simp only [isValidProfileScreenshot, hany, if_true]
  · intro text h
    simp only [isValidProfileScreenshot, h, Bool.false_eq_true, if_false,
      List.any_eq_true]
  · intro pre post
    constructor
    · have hlit : matchToksFrom (toksOfSpaced "8 ball pool by miniclip")
          ("8 Ball Pool by Miniclip".toList) = true := by decide
      have hsearch : searchToks (toksOfSpaced "8 ball pool by miniclip")
          ((pre ++ "8 Ball Pool by Miniclip" ++ post).toList) = true := by
        rw [string_toList_append, string_toList_append]
        rw [List.append_assoc]
        exact searchToks_append_left _
          (searchToks_of_match (matchToksFrom_append _ hlit))
      have hany : mainMenuIndicators.any
          (fun p => patTest p (pre ++ "8 Ball Pool by Miniclip" ++ post).toList) = true := by
        refine List.any_eq_true.mpr ⟨[toksOfSpaced "8 ball pool by miniclip"], ?_, ?_⟩
        · simp [mainMenuIndicators]
        · simpa [patTest] using hsearch
      simp only [isValidProfileScreenshot, hany, if_true]
    · have hlit : matchToksFrom (toksOfSpaced "play special")
          ("Play Special".toList) = true := by decide
      have hsearch : searchToks (toksOfSpaced "play special")
          ((pre ++ "Play Special" ++ post).toList) = true := by
        rw [string_toList_append, string_toList_append]
        rw [List.append_assoc]
        exact searchToks_append_left _
          (searchToks_of_match (matchToksFrom_append _ hlit))
      have hany : mainMenuIndicators.any
          (fun p => patTest p (pre ++ "Play Special" ++ post).toList) = true := by
        refine List.any_eq_true.mpr ⟨[toksOfSpaced "play special"], ?_, ?_⟩
        · simp [mainMenuIndicators]
        · simpa [patTest] using hsearch
      simp only [isValidProfileScreenshot, hany, if_true]

/-- Witness for C4: a concrete main-menu text with an embedded level marker
is rejected, and a clean profile text is accepted. -/
theorem classifier_disqualify_first_witness :
    isValidProfileScreenshot
      ("Level Progress 42 " ++ "8 Ball Pool by Miniclip" ++ " lobby") = false ∧
    isValidProfileScreenshot "Unique ID 123" = true := by
  constructor
  · exact (classifier_disqualify_first.2.2 "Level Progress 42 " " lobby").1
  · exact (classifier_disqualify_first.2.1 "Unique ID 123" (by decide)).mpr
      ⟨[toksOfSpaced "unique id"], by simp [profileIndicators], by decide⟩

/-! ## Lemmas about the best-match reduce -/

theorem betterOf_eq_or (b c : ResultEntry) : betterOf b c = b ∨ betterOf b c = c := by
  rcases hc : c.confidence with _ | v
  · left
    simp [betterOf, hc]
  · by_cases h : v ≠ 0 ∧ confOr0 b.confidence < v
    · right
      simp only [betterOf, hc]
      rw [if_pos h]
    · left
      simp only [betterOf, hc]
      rw [if_neg h]

theorem foldl_betterOf_mem (h : ResultEntry) (t : List ResultEntry) :
    t.foldl betterOf h ∈ h :: t := by
  induction t generalizing h with
  | nil => simp
  | cons a t ih =>
    have hmem := ih (betterOf h a)
    rw [List.foldl_cons]
    rcases List.mem_cons.mp hmem with he | he
    · rw [he]
      rcases betterOf_eq_or h a with hb | hb <;> rw [hb] <;> simp
    · exact List.mem_cons_of_mem _ (List.mem_cons_of_mem _ he)

/-- When the reduce step keeps the best so far, the current entry does not
have strictly larger (truthy) confidence. -/
theorem betterOf_keep_le (b c : ResultEntry)
    (hb : 0 ≤ confOr0 b.confidence)
    (hno : ¬ ∃ v, c.confidence = some v ∧ v ≠ 0 ∧ confOr0 b.confidence < v) :
    betterOf b c = b ∧ confOr0 c.confidence ≤ confOr0 b.confidence := by
  cases hc : c.confidence with
  | none =>
    refine ⟨by simp [betterOf, hc], ?_⟩
    simpa [confOr0, hc] using hb
  | some v =>
    push_neg at hno
    have hv := hno v hc
    constructor
    · unfold betterOf
      rw [hc]
      by_cases h0 : v = 0
      · simp [h0]
      · simp [h0, hv h0]
    · by_cases h0 : v = 0
      · subst h0
        simpa [confOr0, hc] using hb
      · simpa [confOr0, hc] using hv h0

theorem foldl_betterOf_spec (h : ResultEntry) (t : List ResultEntry)
    (hn : ∀ r ∈ h :: t, 0 ≤ confOr0 r.confidence) :
    ∃ pre suf, h :: t = pre ++ (t.foldl betterOf h) :: suf ∧
      (∀ r ∈ h :: t,
        confOr0 r.confidence ≤ confOr0 (t.foldl betterOf h).confidence) ∧
      (∀ r ∈ pre,
        confOr0 r.confidence < confOr0 (t.foldl betterOf h).confidence) := by
  induction t generalizing h with
  | nil =>
    refine ⟨[], [], rfl, ?_, by simp⟩
    intro r hr
    rw [List.mem_singleton] at hr
    subst hr
    exact le_refl _
  | cons a t ih =>
    rw [List.foldl_cons]
    by_cases hcond : ∃ v, a.confidence = some v ∧ v ≠ 0 ∧ confOr0 h.confidence < v
    · obtain ⟨v, hv, hv0, hlt⟩ := hcond
      have hba : betterOf h a = a := by
        unfold betterOf
        rw [hv]
        simp [hv0, hlt]
      rw [hba]
      have hlt' : confOr0 h.confidence < confOr0 a.confidence := by
        rw [confOr0, hv]
        exact hlt
      obtain ⟨pre, suf, heq, hmax, hstrict⟩ :=
        ih a (fun r hr => hn r (List.mem_cons_of_mem _ hr))
      refine ⟨h :: pre, suf, ?_, ?_, ?_⟩
      · rw [List.cons_append, ← heq]
      · intro r hr
        rcases List.mem_cons.mp hr with he | he
        · subst he
          exact le_of_lt (lt_of_lt_of_le hlt' (hmax a (List.mem_cons_self _ _)))
        · exact hmax r he
      · intro r hr
        rcases List.mem_cons.mp hr with he | he
        · subst he
          exact lt_of_lt_of_le hlt' (hmax a (List.mem_cons_self _ _))
        · exact hstrict r he
    · have hh0 : 0 ≤ confOr0 h.confidence := hn h (List.mem_cons_self _ _)
      obtain ⟨hba, hle⟩ := betterOf_keep_le h a hh0 hcond
      rw [hba]
      have hn' : ∀ r ∈ h :: t, 0 ≤ confOr0 r.confidence := by
        intro r hr
        rcases List.mem_cons.mp hr with he | he
        · exact he ▸ hh0
        · exact hn r (List.mem_cons_of_mem _ (List.mem_cons_of_mem _ he))
      obtain ⟨pre, suf, heq, hmax, hstrict⟩ := ih h hn'
      cases pre with
      | nil =>
        rw [List.nil_append, List.cons.injEq] at heq
        obtain ⟨hb, hsuf⟩ := heq
        refine ⟨[], a :: t, ?_, ?_, by simp⟩
        · rw [List.nil_append, ← hb]
        · intro r hr
          rcases List.mem_cons.mp hr with he | he
          · rw [he]
            exact hmax h (List.mem_cons_self _ _)
          · rcases List.mem_cons.mp he with he' | he'
            · rw [he']
              exact le_trans hle (hmax h (List.mem_cons_self _ _))
            · exact hmax r (List.mem_cons_of_mem _ he')
      | cons p pre =>
        rw [List.cons_append, List.cons.injEq] at heq
        obtain ⟨hp, ht⟩ := heq
        have hhmem : h ∈ p :: pre := by
          rw [hp]
          exact List.mem_cons_self _ _
        refine ⟨h :: a :: pre, suf, ?_, ?_, ?_⟩
        · rw [List.cons_append, List.cons_append]
          conv_lhs => rw [ht]
        · intro r hr
          rcases List.mem_cons.mp hr with he | he
          · rw [he]
            exact hmax h (List.mem_cons_self _ _)
          · rcases List.mem_cons.mp he with he' | he'
            · rw [he']
              exact le_trans hle (hmax h (List.mem_cons_self _ _))
            · exact hmax r (List.mem_cons_of_mem _ he')
        · intro r hr
          have hhstrict : confOr0 h.confidence <
              confOr0 (List.foldl betterOf h t).confidence :=
            hstrict h hhmem
          rcases List.mem_cons.mp hr with he | he
          · rw [he]
            exact hhstrict
          · rcases List.mem_cons.mp he with he' | he'
            · rw [he']
              exact lt_of_le_of_lt hle hhstrict
            · exact hstrict r (List.mem_cons_of_mem _ he')

/-- C6: on every non-empty list of match results with (0-100, hence
non-negative) confidences, the reduce selects an element of the list whose
confidence is maximal, and everything strictly before it in submission
order has strictly smaller confidence: first-seen wins on ties. -/
theorem best_match_first_max (l : List ResultEntry) (hne : l ≠ [])
    (hn : ∀ r ∈ l, ∃ c, r.confidence = some c ∧ 0 ≤ c) :
    ∃ best pre suf, bestMatchOf l = some best ∧ l = pre ++ best :: suf ∧
      (∀ r ∈ l, confOr0 r.confidence ≤ confOr0 best.confidence) ∧
      (∀ r ∈ pre, confOr0 r.confidence < confOr0 best.confidence) := by
  cases l with
  | nil => exact absurd rfl hne
  | cons h t =>
    have hn' : ∀ r ∈ h :: t, 0 ≤ confOr0 r.confidence := by
      intro r hr
      obtain ⟨c, hc, h0⟩ := hn r hr
      rw [confOr0, hc]
      exact h0
    obtain ⟨pre, suf, heq, hmax, hstrict⟩ := foldl_betterOf_spec h t hn'
    exact ⟨t.foldl betterOf h, pre, suf, rfl, heq, hmax, hstrict⟩

/-- Witness for C6: on a concrete list with a tied maximum the reduce
returns the earlier of the two tied entries. -/
theorem best_match_first_max_witness :
    (∃ best pre suf,
      bestMatchOf [⟨true, none, none, some 80, none⟩,
        ⟨true, none, some 5, some 90, none⟩,
        ⟨true, none, some 7, some 90, none⟩] = some best ∧
      ([⟨true, none, none, some 80, none⟩,
        ⟨true, none, some 5, some 90, none⟩,
        ⟨true, none, some 7, some 90, none⟩] : List ResultEntry) =
          pre ++ best :: suf ∧
      (∀ r ∈ ([⟨true, none, none, some 80, none⟩,
        ⟨true, none, some 5, some 90, none⟩,
        ⟨true, none, some 7, some 90, none⟩] : List ResultEntry),
          confOr0 r.confidence ≤ confOr0 best.confidence) ∧
      (∀ r ∈ pre, confOr0 r.confidence < confOr0 best.confidence)) ∧
    bestMatchOf [⟨true, none, none, some 80, none⟩,
        ⟨true, none, some 5, some 90, none⟩,
        ⟨true, none, some 7, some 90, none⟩] =
      some ⟨true, none, some 5, some 90, none⟩ := by
  constructor
  · refine best_match_first_max _ (by decide) ?_
    intro r hr
    fin_cases hr
    · exact ⟨80, rfl, by norm_num⟩
    · exact ⟨90, rfl, by norm_num⟩
    · exact ⟨90, rfl, by norm_num⟩
  · decide

/-! ## Lemmas about the reconciliation pipeline -/

theorem mem_buildResults_of_matched {r : MatchedRank} {outcomes : List AttachOutcome}
    (h : AttachOutcome.matched r ∈ outcomes) :
    mkSuccessEntry r ∈ buildResults outcomes :=
  List.mem_filterMap.mpr ⟨_, h, rfl⟩

theorem mem_buildResults_of_notProfile {outcomes : List AttachOutcome}
    (h : AttachOutcome.notProfile ∈ outcomes) :
    invalidEntry ∈ buildResults outcomes :=
  List.mem_filterMap.mpr ⟨_, h, rfl⟩

/-- Without a non-profile attachment every entry of the results array is a
success entry built from some matched attachment. -/
theorem buildResults_shape {outcomes : List AttachOutcome}
    (hnp : AttachOutcome.notProfile ∉ outcomes) :
    ∀ e ∈ buildResults outcomes,
      ∃ r, AttachOutcome.matched r ∈ outcomes ∧ e = mkSuccessEntry r := by
  intro e he
  obtain ⟨o, ho, hpush⟩ := List.mem_filterMap.mp he
  cases o with
  | matched r =>
    refine ⟨r, ho, ?_⟩
    have : mkSuccessEntry r = e := Option.some.inj hpush
    exact this.symm
  | notProfile => exact absurd ho hnp
  | notImage => simp [pushResult] at hpush
  | procError => simp [pushResult] at hpush
  | profileNoMatch => simp [pushResult] at hpush

/-- Evaluation of the pipeline when no attachment is a non-profile
screenshot and at least one attachment matched: the best match is selected
and the outcome is decided by the prior-record comparison alone. -/
theorem reconcile_eval (outcomes : List AttachOutcome)
    (prior : Option VerificationRecord) (table : List RankTier)
    (hnp : AttachOutcome.notProfile ∉ outcomes)
    (hm : ∃ r, AttachOutcome.matched r ∈ outcomes) :
    ∃ best mr, bestMatchOf (buildResults outcomes) = some best ∧
      best.rank = some mr ∧
      (AttachOutcome.matched mr ∈ outcomes) ∧
      reconcile outcomes prior table =
        (match prior with
         | some existing =>
           (match getRankByName table existing.rank_name with
            | some existingRank =>
              if mr.level_min < existingRank.level_min then Outcome.rejectNoUpgrade
              else Outcome.accept mr (levelOrMin best.level mr.level_min)
            | none => Outcome.accept mr (levelOrMin best.level mr.level_min))
         | none => Outcome.accept mr (levelOrMin best.level mr.level_min)) := by
  obtain ⟨r0, hr0⟩ := hm
  have hshape := buildResults_shape hnp
  have hfilter : (buildResults outcomes).filter
      (fun r => r.isProfile == some false) = [] := by
    rw [List.filter_eq_nil_iff]
    intro e he
    obtain ⟨r, _, he'⟩ := hshape e he
    rw [he']
    simp [mkSuccessEntry]
  have hmem : mkSuccessEntry r0 ∈ buildResults outcomes :=
    mem_buildResults_of_matched hr0
  have hany : (buildResults outcomes).any
      (fun r => r.success && r.rank.isSome) = true := by
    refine List.any_eq_true.mpr ⟨mkSuccessEntry r0, hmem, ?_⟩
    simp [mkSuccessEntry]
  obtain ⟨h, t, hres⟩ : ∃ h t, buildResults outcomes = h :: t := by
    cases hres : buildResults outcomes with
    | nil =>
      rw [hres] at hmem
      simp at hmem
    | cons h t => exact ⟨h, t, rfl⟩
  have hbest : bestMatchOf (buildResults outcomes) = some (t.foldl betterOf h) := by
    rw [hres]
    rfl
  have hbestmem : t.foldl betterOf h ∈ buildResults outcomes := by
    rw [hres]
    exact foldl_betterOf_mem h t
  obtain ⟨mr, hmr, hbesteq⟩ := hshape _ hbestmem
  have hrank : (t.foldl betterOf h).rank = some mr := by
    rw [hbesteq]
    rfl
  refine ⟨t.foldl betterOf h, mr, hbest, hrank, hmr, ?_⟩
  unfold reconcile
  rw [hfilter]
  rw [if_neg (by simp)]
  rw [hres] at hany hbest
  rw [hres, hany]
  rw [if_neg (by simp)]
  rw [hbest]
  simp only [hrank]

example :
    reconcile [AttachOutcome.matched ⟨"Silver", 30, 59, "r2", some 42, 90⟩] none
      [⟨"Silver", 30, 59, "r2"⟩, ⟨"Gold", 60, 99, "r3"⟩] =
    Outcome.accept ⟨"Silver", 30, 59, "r2", some 42, 90⟩ 42 := by decide


/-- Helper: one non-profile attachment forces the invalid-format rejection. -/
theorem reconcile_rejectInvalid_of_notProfile {outcomes : List AttachOutcome}
    (prior : Option VerificationRecord) (table : List RankTier)
    (hnp : AttachOutcome.notProfile ∈ outcomes) :
    reconcile outcomes prior table = Outcome.rejectInvalid := by
  have hmem : invalidEntry ∈ (buildResults outcomes).filter
      (fun r => r.isProfile == some false) :=
    List.mem_filter.mpr ⟨mem_buildResults_of_notProfile hnp, by decide⟩
  have hpos : 0 < ((buildResults outcomes).filter
      (fun r => r.isProfile == some false)).length :=
    List.length_pos.mpr (List.ne_nil_of_mem hmem)
  unfold reconcile
  rw [if_pos hpos]

/-- Helper: inversion of an accepted reconciliation: acceptance comes from
the selected best match, the accepted level is its computed level, and no
resolvable prior record had a strictly higher tier. -/
theorem reconcile_accept_inversion {outcomes : List AttachOutcome}
    {prior : Option VerificationRecord} {table : List RankTier}
    {mr : MatchedRank} {lvl : Nat}
    (h : reconcile outcomes prior table = Outcome.accept mr lvl) :
    ∃ best, bestMatchOf (buildResults outcomes) = some best ∧
      best.rank = some mr ∧ lvl = levelOrMin best.level mr.level_min ∧
      (∀ ev, prior = some ev → ∀ er, getRankByName table ev.rank_name = some er →
        ¬ mr.level_min < er.level_min) := by
  unfold reconcile at h
  by_cases h1 : 0 < ((buildResults outcomes).filter
      (fun r => r.isProfile == some false)).length
  · rw [if_pos h1] at h
    exact absurd h (by simp)
  · rw [if_neg h1] at h
    by_cases h2 : ((buildResults outcomes).isEmpty ||
        !((buildResults outcomes).any (fun r => r.success && r.rank.isSome))) = true
    · rw [if_pos h2] at h
      exact absurd h (by simp)
    · rw [if_neg h2] at h
      cases hb : bestMatchOf (buildResults outcomes) with
      | none =>
        rw [hb] at h
        exact absurd h (by simp)
      | some best =>
        simp only [hb] at h
        cases hr : best.rank with
        | none =>
          simp only [hr] at h
          exact absurd h (by simp)
        | some mr' =>
          simp only [hr] at h
          cases prior with
          | none =>
            simp only [Outcome.accept.injEq] at h
            obtain ⟨hmr, hlvl⟩ := h
            subst hmr
            exact ⟨best, rfl, hr, hlvl.symm, fun ev hev => by simp at hev⟩
          | some ev =>
            cases hg : getRankByName table ev.rank_name with
            | none =>
              simp only [hg] at h
              simp only [Outcome.accept.injEq] at h
              obtain ⟨hmr, hlvl⟩ := h
              subst hmr
              refine ⟨best, rfl, hr, hlvl.symm, ?_⟩
              intro ev' hev' er her
              rw [Option.some.inj hev'] at hg
              rw [hg] at her
              exact absurd her (by simp)
            | some er =>
              simp only [hg] at h
              by_cases hlt : mr'.level_min < er.level_min
              · rw [if_pos hlt] at h
                exact absurd h (by simp)
              · rw [if_neg hlt] at h
                simp only [Outcome.accept.injEq] at h
                obtain ⟨hmr, hlvl⟩ := h
                subst hmr
                refine ⟨best, rfl, hr, hlvl.symm, ?_⟩
                intro ev' hev' er' her'
                rw [← Option.some.inj hev'] at her'
                rw [hg] at her'
                rw [← Option.some.inj her']
                exact hlt

/-- Helper: with no matched and no non-profile attachment the results
array is empty. -/
theorem buildResults_eq_nil {outcomes : List AttachOutcome}
    (hnm : outcomes.any isMatchedOutcome = false)
    (hnp : AttachOutcome.notProfile ∉ outcomes) :
    buildResults outcomes = [] := by
  rw [buildResults, List.filterMap_eq_nil_iff]
  intro o ho
  cases o with
  | matched r =>
    have := List.any_eq_false.mp hnm _ ho
    simp [isMatchedOutcome] at this
  | notProfile => exact absurd ho hnp
  | notImage => rfl
  | procError => rfl
  | profileNoMatch => rfl

/-- C1: whenever a best match has been selected (no poisoning attachment,
at least one match), the pipeline returns RejectNoUpgrade, writing no
record, exactly when a prior record exists whose stored rank resolves to a
tier with level_min strictly above the best-match tier level_min; in every
other case it returns Accept with the best-match rank and its computed
level. -/
theorem reconcile_no_upgrade_dichotomy (outcomes : List AttachOutcome)
    (prior : Option VerificationRecord) (table : List RankTier)
    (hnp : AttachOutcome.notProfile ∉ outcomes)
    (hm : ∃ r, AttachOutcome.matched r ∈ outcomes) :
    ∃ best mr, bestMatchOf (buildResults outcomes) = some best ∧
      best.rank = some mr ∧
      ((∃ ev er, prior = some ev ∧ getRankByName table ev.rank_name = some er ∧
          mr.level_min < er.level_min) →
        reconcile outcomes prior table = Outcome.rejectNoUpgrade ∧
        ∀ uid un, recordWritten uid un (reconcile outcomes prior table) = none) ∧
      (¬(∃ ev er, prior = some ev ∧ getRankByName table ev.rank_name = some er ∧
          mr.level_min < er.level_min) →
        reconcile outcomes prior table =
          Outcome.accept mr (levelOrMin best.level mr.level_min)) := by
  obtain ⟨best, mr, hbest, hrank, hmrmem, heval⟩ :=
    reconcile_eval outcomes prior table hnp hm
  refine ⟨best, mr, hbest, hrank, ?_, ?_⟩
  · rintro ⟨ev, er, hev, her, hlt⟩
    subst hev
    have hout : reconcile outcomes (some ev) table = Outcome.rejectNoUpgrade := by
      rw [heval]
      simp only [her]
      rw [if_pos hlt]
    refine ⟨hout, ?_⟩
    intro uid un
    rw [hout]
    rfl
  · intro hnex
    rw [heval]
    cases prior with
    | none => rfl
    | some ev =>
      cases hger : getRankByName table ev.rank_name with
      | none => simp only [hger]
      | some er =>
        have hnlt : ¬ mr.level_min < er.level_min :=
          fun hlt => hnex ⟨ev, er, rfl, hger, hlt⟩
        simp only [hger]
        rw [if_neg hnlt]

/-- Witness for C1 at a concrete submission: prior Gold (level_min 60),
best match Bronze (level_min 10): the dichotomy instantiates and its
no-upgrade side fires. -/
theorem reconcile_no_upgrade_dichotomy_witness :
    ∃ best mr,
      bestMatchOf (buildResults
        [AttachOutcome.matched ⟨"Bronze", 10, 29, "r1", some 12, 85⟩]) = some best ∧
      best.rank = some mr ∧
      ((∃ ev er,
          (some ⟨"u1", "alice", "Gold", 60, "r3"⟩ : Option VerificationRecord) = some ev ∧
          getRankByName [⟨"Bronze", 10, 29, "r1"⟩, ⟨"Gold", 60, 99, "r3"⟩]
            ev.rank_name = some er ∧
          mr.level_min < er.level_min) →
        reconcile [AttachOutcome.matched ⟨"Bronze", 10, 29, "r1", some 12, 85⟩]
          (some ⟨"u1", "alice", "Gold", 60, "r3"⟩)
          [⟨"Bronze", 10, 29, "r1"⟩, ⟨"Gold", 60, 99, "r3"⟩] =
          Outcome.rejectNoUpgrade ∧
        ∀ uid un, recordWritten uid un
          (reconcile [AttachOutcome.matched ⟨"Bronze", 10, 29, "r1", some 12, 85⟩]
            (some ⟨"u1", "alice", "Gold", 60, "r3"⟩)
            [⟨"Bronze", 10, 29, "r1"⟩, ⟨"Gold", 60, 99, "r3"⟩]) = none) ∧
      (¬(∃ ev er,
          (some ⟨"u1", "alice", "Gold", 60, "r3"⟩ : Option VerificationRecord) = some ev ∧
          getRankByName [⟨"Bronze", 10, 29, "r1"⟩, ⟨"Gold", 60, 99, "r3"⟩]
            ev.rank_name = some er ∧
          mr.level_min < er.level_min) →
        reconcile [AttachOutcome.matched ⟨"Bronze", 10, 29, "r1", some 12, 85⟩]
          (some ⟨"u1", "alice", "Gold", 60, "r3"⟩)
          [⟨"Bronze", 10, 29, "r1"⟩, ⟨"Gold", 60, 99, "r3"⟩] =
          Outcome.accept mr (levelOrMin best.level mr.level_min)) :=
  reconcile_no_upgrade_dichotomy
    [AttachOutcome.matched ⟨"Bronze", 10, 29, "r1", some 12, 85⟩]
    (some ⟨"u1", "alice", "Gold", 60, "r3"⟩)
    [⟨"Bronze", 10, 29, "r1"⟩, ⟨"Gold", 60, 99, "r3"⟩]
    (by decide) ⟨⟨"Bronze", 10, 29, "r1", some 12, 85⟩, by decide⟩

/-- C3: a submission containing a non-profile attachment is rejected as
invalid as a whole, with no record written, whatever the other attachments
produced. -/
theorem reconcile_batch_poisoning (outcomes : List AttachOutcome)
    (prior : Option VerificationRecord) (table : List RankTier)
    (hnp : AttachOutcome.notProfile ∈ outcomes) :
    reconcile outcomes prior table = Outcome.rejectInvalid ∧
    ∀ uid un, recordWritten uid un (reconcile outcomes prior table) = none := by
  have hout := reconcile_rejectInvalid_of_notProfile prior table hnp
  refine ⟨hout, ?_⟩
  intro uid un
  rw [hout]
  rfl

/-- Witness for C3: one non-profile attachment next to a valid
high-confidence Platinum match still rejects the whole submission. -/
theorem reconcile_batch_poisoning_witness :
    reconcile [AttachOutcome.notProfile,
        AttachOutcome.matched ⟨"Platinum", 80, 120, "r4", some 99, 99⟩]
      none [] = Outcome.rejectInvalid ∧
    recordWritten "u1" "alice"
      (reconcile [AttachOutcome.notProfile,
        AttachOutcome.matched ⟨"Platinum", 80, 120, "r4", some 99, 99⟩]
        none []) = none := by
  obtain ⟨h1, h2⟩ := reconcile_batch_poisoning
    [AttachOutcome.notProfile,
      AttachOutcome.matched ⟨"Platinum", 80, 120, "r4", some 99, 99⟩]
    none [] (by decide)
  exact ⟨h1, h2 "u1" "alice"⟩

/-- C5 counterexample: a submission whose single attachment produced no
rank match (it is a non-profile screenshot) is rejected as invalid, not as
unreadable: the no-match rule does not cover submissions hit by the
poisoning rule. -/
theorem no_match_not_always_unreadable :
    ([AttachOutcome.notProfile].any isMatchedOutcome) = false ∧
    reconcile [AttachOutcome.notProfile] none [] = Outcome.rejectInvalid ∧
    Outcome.rejectInvalid ≠ Outcome.rejectUnreadable := by decide

/-- C5 amended: a submission with no rank match is never accepted; and
when additionally no attachment was a non-profile screenshot (otherwise
the poisoning rule takes precedence) the outcome is RejectUnreadable with
no record written.  This covers the empty submission and the
all-profile-but-unreadable submission. -/
theorem reconcile_unreadable (outcomes : List AttachOutcome)
    (prior : Option VerificationRecord) (table : List RankTier)
    (hnm : outcomes.any isMatchedOutcome = false) :
    (∀ mr lvl, reconcile outcomes prior table ≠ Outcome.accept mr lvl) ∧
    (AttachOutcome.notProfile ∉ outcomes →
      reconcile outcomes prior table = Outcome.rejectUnreadable ∧
      ∀ uid un, recordWritten uid un (reconcile outcomes prior table) = none) := by
  have hunread : AttachOutcome.notProfile ∉ outcomes →
      reconcile outcomes prior table = Outcome.rejectUnreadable := by
    intro hnp
    have hnil := buildResults_eq_nil hnm hnp
    unfold reconcile
    rw [hnil]
    rfl
  refine ⟨?_, fun hnp => ⟨hunread hnp, fun uid un => by rw [hunread hnp]; rfl⟩⟩
  intro mr lvl hacc
  by_cases hnp : AttachOutcome.notProfile ∈ outcomes
  · rw [reconcile_rejectInvalid_of_notProfile prior table hnp] at hacc
    exact absurd hacc (by simp)
  · rw [hunread hnp] at hacc
    exact absurd hacc (by simp)

/-- Witness for C5 amended: two unreadable-but-valid profile attachments:
the submission is rejected as unreadable, never accepted, and nothing is
written. -/
theorem reconcile_unreadable_witness :
    (∀ mr lvl, reconcile [AttachOutcome.profileNoMatch, AttachOutcome.profileNoMatch]
        none [] ≠ Outcome.accept mr lvl) ∧
    reconcile [AttachOutcome.profileNoMatch, AttachOutcome.profileNoMatch] none [] =
      Outcome.rejectUnreadable := by
  obtain ⟨h1, h2⟩ := reconcile_unreadable
    [AttachOutcome.profileNoMatch, AttachOutcome.profileNoMatch] none [] (by decide)
  exact ⟨h1, (h2 (by decide)).1⟩

/-- C9: when the stored rank name of the prior record resolves to no tier
of the rank table, the downgrade check is skipped and a submission with a
selected best match is accepted and its record written, whatever the new
rank is. -/
theorem unresolvable_prior_accepts (outcomes : List AttachOutcome)
    (table : List RankTier) (ev : VerificationRecord)
    (hnp : AttachOutcome.notProfile ∉ outcomes)
    (hm : ∃ r, AttachOutcome.matched r ∈ outcomes)
    (hnores : getRankByName table ev.rank_name = none) :
    ∃ mr lvl, reconcile outcomes (some ev) table = Outcome.accept mr lvl ∧
      recordWritten ev.discord_id ev.username
        (reconcile outcomes (some ev) table) =
        some ⟨ev.discord_id, ev.username, mr.rank_name, lvl, mr.role_id⟩ := by
  obtain ⟨best, mr, hbest, hrank, hmrmem, heval⟩ :=
    reconcile_eval outcomes (some ev) table hnp hm
  have hout : reconcile outcomes (some ev) table =
      Outcome.accept mr (levelOrMin best.level mr.level_min) := by
    rw [heval]
    simp only [hnores]
  refine ⟨mr, levelOrMin best.level mr.level_min, hout, ?_⟩
  rw [hout]
  rfl

/-- Witness for C9: the stored rank name Obsidian is absent from the
table, and a strictly lower Bronze match is accepted and written. -/
theorem unresolvable_prior_accepts_witness :
    ∃ mr lvl,
      reconcile [AttachOutcome.matched ⟨"Bronze", 10, 29, "r1", some 12, 85⟩]
        (some ⟨"u1", "alice", "Obsidian", 150, "r9"⟩)
        [⟨"Bronze", 10, 29, "r1"⟩, ⟨"Gold", 60, 99, "r3"⟩] =
        Outcome.accept mr lvl ∧
      recordWritten "u1" "alice"
        (reconcile [AttachOutcome.matched ⟨"Bronze", 10, 29, "r1", some 12, 85⟩]
          (some ⟨"u1", "alice", "Obsidian", 150, "r9"⟩)
          [⟨"Bronze", 10, 29, "r1"⟩, ⟨"Gold", 60, 99, "r3"⟩]) =
        some ⟨"u1", "alice", mr.rank_name, lvl, mr.role_id⟩ :=
  unresolvable_prior_accepts
    [AttachOutcome.matched ⟨"Bronze", 10, 29, "r1", some 12, 85⟩]
    [⟨"Bronze", 10, 29, "r1"⟩, ⟨"Gold", 60, 99, "r3"⟩]
    ⟨"u1", "alice", "Obsidian", 150, "r9"⟩
    (by decide) ⟨⟨"Bronze", 10, 29, "r1", some 12, 85⟩, by decide⟩ (by decide)

/-- C10: if a submission is accepted while the selected best match carries
no detected level, or a detected level of zero, then the accepted (and
persisted) level is the accepted tier level_min. -/
theorem accept_level_fallback (outcomes : List AttachOutcome)
    (prior : Option VerificationRecord) (table : List RankTier)
    (mr : MatchedRank) (lvl : Nat) (best : ResultEntry)
    (hacc : reconcile outcomes prior table = Outcome.accept mr lvl)
    (hbest : bestMatchOf (buildResults outcomes) = some best)
    (hlevel : best.level = none ∨ best.level = some 0) :
    reconcile outcomes prior table = Outcome.accept mr mr.level_min ∧
    ∀ uid un, recordWritten uid un (reconcile outcomes prior table) =
      some ⟨uid, un, mr.rank_name, mr.level_min, mr.role_id⟩ := by
  obtain ⟨best', hb', hr', hl', hnd⟩ := reconcile_accept_inversion hacc
  have hbb : best' = best := Option.some.inj (hb'.symm.trans hbest)
  subst hbb
  have hlvl : lvl = mr.level_min := by
    rcases hlevel with h | h <;> rw [h] at hl' <;> simpa [levelOrMin] using hl'
  rw [hlvl] at hacc
  refine ⟨hacc, ?_⟩
  intro uid un
  rw [hacc]
  rfl

/-- Witness for C10: an accepted Silver match with no detected level is
persisted with level 30, the Silver tier minimum. -/
theorem accept_level_fallback_witness :
    reconcile [AttachOutcome.matched ⟨"Silver", 30, 59, "r2", none, 80⟩] none
      [⟨"Silver", 30, 59, "r2"⟩] =
      Outcome.accept ⟨"Silver", 30, 59, "r2", none, 80⟩ 30 ∧
    recordWritten "u1" "alice"
      (reconcile [AttachOutcome.matched ⟨"Silver", 30, 59, "r2", none, 80⟩] none
        [⟨"Silver", 30, 59, "r2"⟩]) =
      some ⟨"u1", "alice", "Silver", 30, "r2"⟩ := by
  obtain ⟨h1, h2⟩ := accept_level_fallback
    [AttachOutcome.matched ⟨"Silver", 30, 59, "r2", none, 80⟩] none
    [⟨"Silver", 30, 59, "r2"⟩] ⟨"Silver", 30, 59, "r2", none, 80⟩ 30
    (mkSuccessEntry ⟨"Silver", 30, 59, "r2", none, 80⟩)
    (by decide) (by decide) (Or.inl rfl)
  exact ⟨h1, h2 "u1" "alice"⟩

/-- C2 counterexample: a stored Silver record with level_detected 59 is
overwritten by the pipeline with level_detected 30 when a new Silver match
at level 30 arrives: the downgrade check compares tier level_min values
only, so level_detected strictly decreases on this pipeline update. -/
theorem level_detected_can_decrease :
    reconcile [AttachOutcome.matched ⟨"Silver", 30, 59, "r2", some 30, 90⟩]
      (some ⟨"u1", "alice", "Silver", 59, "r2"⟩)
      [⟨"Bronze", 10, 29, "r1"⟩, ⟨"Silver", 30, 59, "r2"⟩, ⟨"Gold", 60, 99, "r3"⟩] =
      Outcome.accept ⟨"Silver", 30, 59, "r2", some 30, 90⟩ 30 ∧
    recordWritten "u1" "alice"
      (reconcile [AttachOutcome.matched ⟨"Silver", 30, 59, "r2", some 30, 90⟩]
        (some ⟨"u1", "alice", "Silver", 59, "r2"⟩)
        [⟨"Bronze", 10, 29, "r1"⟩, ⟨"Silver", 30, 59, "r2"⟩, ⟨"Gold", 60, 99, "r3"⟩]) =
      some ⟨"u1", "alice", "Silver", 30, "r2"⟩ ∧
    (30 : Nat) < 59 := by decide

/-- C2 amended: what the pipeline keeps non-decreasing is the tier, not the
detected level: whenever a submission is accepted over a prior record whose
stored rank name resolves in the table, the accepted tier level_min is at
least the stored tier level_min; level_detected itself may decrease inside
a tier (and the check is skipped entirely when the stored name does not
resolve). -/
theorem accept_tier_no_downgrade (outcomes : List AttachOutcome)
    (table : List RankTier) (ev : VerificationRecord) (er : RankTier)
    (mr : MatchedRank) (lvl : Nat)
    (hacc : reconcile outcomes (some ev) table = Outcome.accept mr lvl)
    (her : getRankByName table ev.rank_name = some er) :
    er.level_min ≤ mr.level_min := by
  obtain ⟨best, _, _, _, hnd⟩ := reconcile_accept_inversion hacc
  exact Nat.le_of_not_lt (hnd ev rfl er her)

/-- Witness for C2 amended: a Gold submission accepted over a stored
Silver record has tier minimum 60, at least the stored tier minimum 30. -/
theorem accept_tier_no_downgrade_witness : (30 : Nat) ≤ 60 :=
  accept_tier_no_downgrade
    [AttachOutcome.matched ⟨"Gold", 60, 99, "r3", some 75, 90⟩]
    [⟨"Silver", 30, 59, "r2"⟩, ⟨"Gold", 60, 99, "r3"⟩]
    ⟨"u1", "alice", "Silver", 42, "r2"⟩ ⟨"Silver", 30, 59, "r2"⟩
    ⟨"Gold", 60, 99, "r3", some 75, 90⟩ 75
    (by decide) (by decide)

/-! ## Lemmas about the deletion scheduler -/

theorem regLookup_cons_self {k : String} {t : Nat} {reg : List (String × Nat)} :
    regLookup ((k, t) :: reg) k = some t := by
  simp [regLookup, List.find?_cons]

theorem regLookup_cons_ne {k : String} {t : Nat} {reg : List (String × Nat)}
    {m : String} (h : ¬ k = m) : regLookup ((k, t) :: reg) m = regLookup reg m := by
  simp [regLookup, List.find?_cons, h]

theorem regLookup_regErase_self (reg : List (String × Nat)) (m : String) :
    regLookup (regErase reg m) m = none := by
  induction reg with
  | nil => rfl
  | cons e reg ih =>
    by_cases hk : e.1 = m
    · rw [show regErase (e :: reg) m = regErase reg m by simp [regErase, hk]]
      exact ih
    · rw [show regErase (e :: reg) m = e :: regErase reg m by simp [regErase, hk]]
      rw [show (e : String × Nat) = (e.1, e.2) from rfl, regLookup_cons_ne hk]
      exact ih

theorem regLookup_regErase_ne (reg : List (String × Nat)) {m m' : String}
    (h : ¬ m' = m) : regLookup (regErase reg m) m' = regLookup reg m' := by
  induction reg with
  | nil => rfl
  | cons e reg ih =>
    by_cases hk : e.1 = m
    · rw [show regErase (e :: reg) m = regErase reg m by simp [regErase, hk]]
      rw [ih]
      have hk' : ¬ e.1 = m' := by
        rw [hk]
        intro he
        exact h he.symm
      rw [show (e : String × Nat) = (e.1, e.2) from rfl, regLookup_cons_ne hk']
    · rw [show regErase (e :: reg) m = e :: regErase reg m by simp [regErase, hk]]
      by_cases hk' : e.1 = m'
      · rw [show (e : String × Nat) = (e.1, e.2) from rfl]
        rw [hk', regLookup_cons_self, regLookup_cons_self]
      · rw [show (e : String × Nat) = (e.1, e.2) from rfl]
        rw [regLookup_cons_ne hk', regLookup_cons_ne hk']
        exact ih

theorem regLookup_regSet_self (reg : List (String × Nat)) (m : String) (t : Nat) :
    regLookup (regSet reg m t) m = some t :=
  regLookup_cons_self

theorem regLookup_regSet_ne (reg : List (String × Nat)) {m m' : String} (t : Nat)
    (h : ¬ m' = m) : regLookup (regSet reg m t) m' = regLookup reg m' := by
  rw [regSet, regLookup_cons_ne (fun he => h he.symm)]
  exact regLookup_regErase_ne reg h

/-- Absence of a live timer for a handle, as a predicate on the timer
list. -/
theorem timersFor_eq_nil_iff (s : SchedState) (m : String) :
    timersFor s m = [] ↔ ∀ e ∈ s.liveTimers, ¬ e.2 = m := by
  rw [timersFor, List.filter_eq_nil_iff]
  constructor
  · intro h e he
    have := h e he
    simpa using this
  · intro h e he
    simp [h e he]

theorem cancelDeletion_inv {s : SchedState} (hinv : SchedInv s) (m : String) :
    SchedInv (cancelDeletion s m) ∧
    timersFor (cancelDeletion s m) m = [] ∧
    regLookup (cancelDeletion s m).registry m = none ∧
    (cancelDeletion s m).nextTimerId = s.nextTimerId ∧
    (cancelDeletion s m).deletionAttempts = s.deletionAttempts := by
  obtain ⟨hreg, hnd, hbound⟩ := hinv
  cases hl : regLookup s.registry m with
  | none =>
    have hcd : cancelDeletion s m = s := by
      simp only [cancelDeletion, hl]
    rw [hcd]
    refine ⟨⟨hreg, hnd, hbound⟩, ?_, hl, rfl, rfl⟩
    rw [timersFor_eq_nil_iff]
    intro e he hem
    have h2 := hreg e he
    rw [hem] at h2
    rw [h2] at hl
    exact absurd hl (by simp)
  | some t =>
    have hcd : cancelDeletion s m =
        { s with liveTimers := s.liveTimers.filter (fun e => e.1 ≠ t),
                 registry := regErase s.registry m } := by
      simp only [cancelDeletion, hl]
    rw [hcd]
    have hne : ∀ e ∈ s.liveTimers.filter (fun e => e.1 ≠ t), ¬ e.2 = m := by
      intro e he hem
      obtain ⟨hmem, hnet⟩ := List.mem_filter.mp he
      have : regLookup s.registry e.2 = some e.1 := hreg e hmem
      rw [hem, hl] at this
      have : e.1 = t := (Option.some.inj this).symm
      simp [this] at hnet
    refine ⟨⟨?_, ?_, ?_⟩, ?_, ?_, rfl, rfl⟩
    · intro e he
      have hnem : ¬ e.2 = m := hne e he
      rw [regLookup_regErase_ne _ hnem]
      exact hreg e (List.mem_filter.mp he).1
    · exact List.Nodup.sublist (List.Sublist.map _ (List.filter_sublist _)) hnd
    · intro e he
      exact hbound e (List.mem_filter.mp he).1
    · rw [timersFor_eq_nil_iff]
      exact hne
    · exact regLookup_regErase_self _ _

theorem scheduleDeletion_inv {s : SchedState} (hinv : SchedInv s) (m : String) :
    SchedInv (scheduleDeletion s m true) ∧
    timersFor (scheduleDeletion s m true) m = [(s.nextTimerId, m)] ∧
    (scheduleDeletion s m true).nextTimerId = s.nextTimerId + 1 ∧
    (scheduleDeletion s m true).deletionAttempts = s.deletionAttempts := by
  obtain ⟨hinv1, hno1, hlook1, hnext1, hatt1⟩ := cancelDeletion_inv hinv m
  obtain ⟨hreg1, hnd1, hbound1⟩ := hinv1
  rw [show scheduleDeletion s m true =
      { cancelDeletion s m with
        liveTimers := ((cancelDeletion s m).nextTimerId, m) ::
          (cancelDeletion s m).liveTimers,
        registry := regSet (cancelDeletion s m).registry m
          (cancelDeletion s m).nextTimerId,
        nextTimerId := (cancelDeletion s m).nextTimerId + 1 } from rfl]
  rw [timersFor_eq_nil_iff] at hno1
  refine ⟨⟨?_, ?_, ?_⟩, ?_, ?_, ?_⟩
  · intro e he
    rcases List.mem_cons.mp he with he | he
    · rw [he]
      exact regLookup_regSet_self _ _ _
    · have hnem : ¬ e.2 = m := hno1 e he
      rw [regLookup_regSet_ne _ _ hnem]
      exact hreg1 e he
  · rw [List.map_cons]
    rw [List.nodup_cons]
    refine ⟨?_, hnd1⟩
    intro hmem
    obtain ⟨e, he, heq⟩ := List.mem_map.mp hmem
    have := hbound1 e he
    rw [heq] at this
    exact absurd this (by simp)
  · intro e he
    rcases List.mem_cons.mp he with he | he
    · rw [he]
      exact Nat.lt_succ_self _
    · exact Nat.lt_succ_of_lt (hbound1 e he)
  · rw [timersFor]
    simp only [List.filter_cons]
    rw [if_pos (by simp)]
    rw [show List.filter (fun e => e.2 = m) (cancelDeletion s m).liveTimers = []
        from (timersFor_eq_nil_iff _ _).mpr hno1]
    rw [hnext1]
  · rw [hnext1]
  · exact hatt1

theorem fireTimer_inv {s : SchedState} (hinv : SchedInv s) (t : Nat) :
    SchedInv (fireTimer s t) ∧ (fireTimer s t).nextTimerId = s.nextTimerId := by
  obtain ⟨hreg, hnd, hbound⟩ := hinv
  cases hf : s.liveTimers.find? (fun e => e.1 = t) with
  | none =>
    have hft : fireTimer s t = s := by
      simp only [fireTimer, hf]
    rw [hft]
    exact ⟨⟨hreg, hnd, hbound⟩, rfl⟩
  | some e =>
    have hft : fireTimer s t =
        { s with liveTimers := s.liveTimers.filter (fun e' => e'.1 ≠ t),
                 registry := regErase s.registry e.2,
                 deletionAttempts := s.deletionAttempts ++ [e.2] } := by
      simp only [fireTimer, hf]
    rw [hft]
    have hemem : e ∈ s.liveTimers := List.mem_of_find?_eq_some hf
    have het : e.1 = t := by
      have := List.find?_some hf
      simpa using this
    refine ⟨⟨?_, ?_, ?_⟩, rfl⟩
    · intro e' he'
      obtain ⟨hmem', hne'⟩ := List.mem_filter.mp he'
      have hne2 : ¬ e'.2 = e.2 := by
        intro hsame
        have h1 := hreg e' hmem'
        rw [hsame] at h1
        rw [hreg e hemem] at h1
        have : e.1 = e'.1 := Option.some.inj h1
        rw [← this, het] at hne'
        simp at hne'
      rw [regLookup_regErase_ne _ hne2]
      exact hreg e' hmem'
    · exact List.Nodup.sublist (List.Sublist.map _ (List.filter_sublist _)) hnd
    · intro e' he'
      exact hbound e' (List.mem_filter.mp he').1

theorem applyStep_inv {s : SchedState} (hinv : SchedInv s) (st : SchedStep) :
    SchedInv (applyStep s st) := by
  cases st with
  | schedule m isDM =>
    cases isDM with
    | false => exact hinv
    | true => exact (scheduleDeletion_inv hinv m).1
  | cancel m => exact (cancelDeletion_inv hinv m).1
  | fire t => exact (fireTimer_inv hinv t).1
  | cleanup =>
    exact ⟨fun e he => absurd he (List.not_mem_nil e),
      List.nodup_nil, fun e he => absurd he (List.not_mem_nil e)⟩

theorem foldl_applyStep_inv (steps : List SchedStep) :
    ∀ s : SchedState, SchedInv s → SchedInv (steps.foldl applyStep s) := by
  induction steps with
  | nil => exact fun s hs => hs
  | cons st steps ih =>
    intro s hs
    exact ih _ (applyStep_inv hs st)

theorem initState_inv : SchedInv initState :=
  ⟨fun e he => absurd he (List.not_mem_nil e),
   List.nodup_nil, fun e he => absurd he (List.not_mem_nil e)⟩

theorem runSteps_inv (steps : List SchedStep) : SchedInv (runSteps steps) :=
  foldl_applyStep_inv steps initState initState_inv

theorem length_le_one_of_nodup_const {l : List (Nat × String)}
    (hnd : (l.map (fun e => e.1)).Nodup)
    (hconst : ∀ x ∈ l, ∀ y ∈ l, x.1 = y.1) : l.length ≤ 1 := by
  match l with
  | [] => simp
  | [x] => simp
  | x :: y :: rest =>
    exfalso
    have hxy : x.1 = y.1 := hconst x (by simp) y (by simp)
    rw [List.map_cons, List.map_cons, List.nodup_cons] at hnd
    exact hnd.1 (by rw [hxy]; exact List.mem_cons_self _ _)

theorem timersFor_length_le_one {s : SchedState} (hinv : SchedInv s) (m : String) :
    (timersFor s m).length ≤ 1 := by
  obtain ⟨hreg, hnd, _⟩ := hinv
  apply length_le_one_of_nodup_const
  · exact List.Nodup.sublist (List.Sublist.map _ (List.filter_sublist _)) hnd
  · intro x hx y hy
    obtain ⟨hxm, hxe⟩ := List.mem_filter.mp hx
    obtain ⟨hym, hye⟩ := List.mem_filter.mp hy
    have h1 := hreg x hxm
    have h2 := hreg y hym
    rw [show x.2 = m by simpa using hxe] at h1
    rw [show y.2 = m by simpa using hye] at h2
    rw [h1] at h2
    exact Option.some.inj h2

/-- C7: at every reachable state of the scheduler there is at most one
live timer per message handle, and scheduling the same handle twice leaves
exactly one live timer, the one armed by the second call (the first is
cancelled and replaced). -/
theorem scheduler_one_timer_per_handle (steps : List SchedStep) :
    (∀ m, (timersFor (runSteps steps) m).length ≤ 1) ∧
    (∀ m, timersFor
        (applyStep (applyStep (runSteps steps) (SchedStep.schedule m true))
          (SchedStep.schedule m true)) m =
      [((runSteps steps).nextTimerId + 1, m)]) := by
  have hinv := runSteps_inv steps
  refine ⟨fun m => timersFor_length_le_one hinv m, fun m => ?_⟩
  obtain ⟨hinv1, _, hnext1, _⟩ := scheduleDeletion_inv hinv m
  obtain ⟨_, htimers2, _, _⟩ := scheduleDeletion_inv hinv1 m
  show timersFor (scheduleDeletion (scheduleDeletion (runSteps steps) m true) m true) m = _
  rw [htimers2, hnext1]

/-- Helper: a state with no live timer for a handle never attempts its
deletion across any run that does not schedule that handle again. -/
theorem no_attempt_without_timer {m : String} (post : List SchedStep) :
    ∀ s : SchedState, (∀ e ∈ s.liveTimers, ¬ e.2 = m) →
      SchedStep.schedule m true ∉ post →
      (∀ e ∈ (post.foldl applyStep s).liveTimers, ¬ e.2 = m) ∧
      (post.foldl applyStep s).deletionAttempts.count m =
        s.deletionAttempts.count m := by
  induction post with
  | nil => exact fun s h _ => ⟨h, rfl⟩
  | cons st post ih =>
    intro s h hmem
    have hmem' : SchedStep.schedule m true ∉ post :=
      fun hc => hmem (List.mem_cons_of_mem _ hc)
    have hstep : (∀ e ∈ (applyStep s st).liveTimers, ¬ e.2 = m) ∧
        (applyStep s st).deletionAttempts.count m = s.deletionAttempts.count m := by
      cases st with
      | schedule m' b =>
        cases b with
        | false => exact ⟨h, rfl⟩
        | true =>
          have hm' : ¬ m' = m := by
            intro he
            rw [he] at hmem
            exact hmem (List.mem_cons_self _ _)
          show (∀ e ∈ (scheduleDeletion s m' true).liveTimers, ¬ e.2 = m) ∧ _
          constructor
          · intro e he
            rcases List.mem_cons.mp he with he | he
            · rw [he]
              exact hm'
            · cases hl : regLookup s.registry m' with
              | none =>
                have hcd : cancelDeletion s m' = s := by
                  simp only [cancelDeletion, hl]
                rw [hcd] at he
                exact h e he
              | some t =>
                have hcd : (cancelDeletion s m').liveTimers =
                    s.liveTimers.filter (fun e => e.1 ≠ t) := by
                  simp only [cancelDeletion, hl]
                rw [hcd] at he
                exact h e (List.mem_filter.mp he).1
          · cases hl : regLookup s.registry m' with
            | none =>
              have hcd : cancelDeletion s m' = s := by
                simp only [cancelDeletion, hl]
              show (cancelDeletion s m').deletionAttempts.count m = _
              rw [hcd]
            | some t =>
              show (cancelDeletion s m').deletionAttempts.count m = _
              have hcd : (cancelDeletion s m').deletionAttempts =
                  s.deletionAttempts := by
                simp only [cancelDeletion, hl]
              rw [hcd]
      | cancel m' =>
        show (∀ e ∈ (cancelDeletion s m').liveTimers, ¬ e.2 = m) ∧
          (cancelDeletion s m').deletionAttempts.count m = _
        cases hl : regLookup s.registry m' with
        | none =>
          have hcd : cancelDeletion s m' = s := by
            simp only [cancelDeletion, hl]
          rw [hcd]
          exact ⟨h, rfl⟩
        | some t =>
          have hcd : cancelDeletion s m' =
              { s with liveTimers := s.liveTimers.filter (fun e => e.1 ≠ t),
                       registry := regErase s.registry m' } := by
            simp only [cancelDeletion, hl]
          rw [hcd]
          exact ⟨fun e he => h e (List.mem_filter.mp he).1, rfl⟩
      | fire t =>
        show (∀ e ∈ (fireTimer s t).liveTimers, ¬ e.2 = m) ∧
          (fireTimer s t).deletionAttempts.count m = _
        cases hf : s.liveTimers.find? (fun e => e.1 = t) with
        | none =>
          have hft : fireTimer s t = s := by
            simp only [fireTimer, hf]
          rw [hft]
          exact ⟨h, rfl⟩
        | some e =>
          have hft : fireTimer s t =
              { s with liveTimers := s.liveTimers.filter (fun e' => e'.1 ≠ t),
                       registry := regErase s.registry e.2,
                       deletionAttempts := s.deletionAttempts ++ [e.2] } := by
            simp only [fireTimer, hf]
          rw [hft]
          have hem : ¬ e.2 = m := h e (List.mem_of_find?_eq_some hf)
          constructor
          · exact fun e' he' => h e' (List.mem_filter.mp he').1
          · have h0 : List.count m [e.2] = 0 := by
              rw [List.count_eq_zero]
              intro hc
              exact hem (List.mem_singleton.mp hc).symm
            rw [List.count_append, h0, Nat.add_zero]
      | cleanup =>
        exact ⟨fun e he => absurd he (List.not_mem_nil e), rfl⟩
    obtain ⟨h1, h2⟩ := ih (applyStep s st) hstep.1 hmem'
    exact ⟨h1, h2.trans hstep.2⟩

/-- C8: scheduling a handle and cancelling it before its timer fires
removes its registry entry, and across any continuation that does not
schedule the handle again the scheduler never attempts a deletion of it. -/
theorem schedule_cancel_prevents_deletion (pre post : List SchedStep) (m : String)
    (hpost : SchedStep.schedule m true ∉ post) :
    regLookup (runSteps
      (pre ++ [SchedStep.schedule m true, SchedStep.cancel m])).registry m = none ∧
    (runSteps (pre ++ [SchedStep.schedule m true, SchedStep.cancel m] ++
        post)).deletionAttempts.count m =
      (runSteps pre).deletionAttempts.count m := by
  have hinv := runSteps_inv pre
  obtain ⟨hinv1, _, _, hatt1⟩ := scheduleDeletion_inv hinv m
  obtain ⟨hinv2, hno2, hlook2, _, hatt2⟩ := cancelDeletion_inv hinv1 m
  have hmid : runSteps (pre ++ [SchedStep.schedule m true, SchedStep.cancel m]) =
      cancelDeletion (scheduleDeletion (runSteps pre) m true) m := by
    rw [runSteps, List.foldl_append]
    rfl
  refine ⟨by rw [hmid]; exact hlook2, ?_⟩
  have hrun : runSteps (pre ++ [SchedStep.schedule m true, SchedStep.cancel m] ++
      post) = post.foldl applyStep
        (cancelDeletion (scheduleDeletion (runSteps pre) m true) m) := by
    rw [runSteps, List.foldl_append, ← runSteps, hmid]
  rw [hrun]
  rw [timersFor_eq_nil_iff] at hno2
  obtain ⟨_, hcount⟩ := no_attempt_without_timer post _ hno2 hpost
  rw [hcount, hatt2, hatt1]

/-- Witness for C8: concretely scheduling then cancelling one message and
letting its timer event arrive afterwards: no registry entry remains and no
deletion of that message is ever attempted. -/
theorem schedule_cancel_prevents_deletion_witness :
    regLookup (runSteps
      ([] ++ [SchedStep.schedule "m1" true, SchedStep.cancel "m1"])).registry
      "m1" = none ∧
    (runSteps ([] ++ [SchedStep.schedule "m1" true, SchedStep.cancel "m1"] ++
        [SchedStep.fire 0])).deletionAttempts.count "m1" =
      (runSteps []).deletionAttempts.count "m1" :=
  schedule_cancel_prevents_deletion [] [SchedStep.fire 0] "m1" (by decide)
